import Mathlib

/-!
# Verification of the `mana_sim` simulation core

Shallow embedding of the Rust sources of `mana_sim` (`src/deck.rs`,
`src/sim.rs`) and proofs about them.

Modelling conventions:
* `u8`/`u32`/`usize` counters are modelled as `Nat`; the only subtractions in
  the source are guarded (`saturating_sub`, `min`-clamped, or protected by
  `can_pay`), and the places where Rust would underflow are the subject of the
  theorems below.
* A Rust `HashMap<String, u32>` is modelled as an association list
  `List (String × Nat)` whose list order stands for the map's iteration order.
  Rust's `HashMap` iteration order is unspecified (it depends on the per-map
  random hash state), so two maps with identical contents may iterate in
  different orders; in the model these are two association lists that are
  permutations of each other.  A real `HashMap` has no duplicate keys, so
  theorems about map-manipulating code carry a `Nodup` hypothesis on the keys.
* `Vec<Card>` is `List Card`; `Vec::pop` takes the last element, `Vec::push`
  appends, and `Vec::remove i` is `List.eraseIdx`.
* `rand::shuffle` is modelled by an explicit shuffle parameter (a function on
  lists), constrained to be a permutation where a theorem needs it.
* Panics (`assert_eq!`, `.expect`) are modelled as `Except`/`Option` failure.
-/

/-- Field of `deck.rs`: `struct Feature { feature, costs, timing }`. -/
structure Feature where
  feature : String
  costs : List String
  timing : List String
deriving DecidableEq, Repr

/-- `deck.rs`: `enum Card` with its four variants and their fields. -/
inductive Card where
  | Commander (name : String) (generic : Nat) (pips : List String)
      (features : List Feature)
  | Spell (name : String) (generic : Nat) (pips : List String)
      (features : List Feature) (type_line : String) (count : Nat)
  | Land (name : String) (produces : List String) (is_fetch : Bool)
      (fetches : List String) (count : Nat)
  | Ramp (name : String) (generic : Nat) (produces : List String)
      (features : List Feature) (count : Nat)
deriving DecidableEq, Repr

instance : Inhabited Card := ⟨Card.Land "" [] false [] 0⟩

namespace Card

/-- `deck.rs`: `Card::has_draw` — any feature named "DRAW". -/
def has_draw : Card → Bool
  | Commander _ _ _ features => features.any (fun f => f.feature == "DRAW")
  | Spell _ _ _ features _ _ => features.any (fun f => f.feature == "DRAW")
  | Ramp _ _ _ features _ => features.any (fun f => f.feature == "DRAW")
  | Land _ _ _ _ _ => false

/-- `deck.rs`: `Card::draw_count` — number of "DRAW" features. -/
def draw_count : Card → Nat
  | Commander _ _ _ features => (features.filter (fun f => f.feature == "DRAW")).length
  | Spell _ _ _ features _ _ => (features.filter (fun f => f.feature == "DRAW")).length
  | Ramp _ _ _ features _ => (features.filter (fun f => f.feature == "DRAW")).length
  | Land _ _ _ _ _ => 0

/-- `deck.rs`: `Card::name`. -/
def name : Card → String
  | Commander n _ _ _ => n
  | Spell n _ _ _ _ _ => n
  | Land n _ _ _ _ => n
  | Ramp n _ _ _ _ => n

/-- `matches!(c, Card::Land { .. })`. -/
def isLand : Card → Bool
  | Land _ _ _ _ _ => true
  | _ => false

/-- `matches!(c, Card::Commander { .. })`. -/
def isCommander : Card → Bool
  | Commander _ _ _ _ => true
  | _ => false

/-- `matches!(c, Card::Ramp { generic, .. } if *generic <= 2)`. -/
def isFastMana : Card → Bool
  | Ramp _ generic _ _ _ => generic ≤ 2
  | _ => false

end Card

/-- `sim.rs`: `struct ManaPool { generic, colors }`.  The `colors` HashMap is
modelled as an association list in iteration order (see the module comment). -/
structure ManaPool where
  generic : Nat
  colors : List (String × Nat)
deriving DecidableEq, Repr

namespace ManaPool

/-- `ManaPool::new()` — all six recognized symbols present at zero. -/
def new : ManaPool :=
  { generic := 0
    colors := [("W", 0), ("U", 0), ("B", 0), ("R", 0), ("G", 0), ("C", 0)] }

/-- `map.get(c).copied().unwrap_or(0)` on an association list. -/
def lookupVal (cs : List (String × Nat)) (c : String) : Nat :=
  (List.lookup c cs).getD 0

/-- Whether a key is present in an association list. -/
def hasKey (cs : List (String × Nat)) (c : String) : Bool :=
  cs.any (fun e => e.1 == c)

/-- Value of a key in the colors map: `self.colors.get(c).copied().unwrap_or(0)`. -/
def getColor (p : ManaPool) (c : String) : Nat :=
  lookupVal p.colors c

/-- Whether a key is present in the colors map. -/
def hasColor (p : ManaPool) (c : String) : Bool :=
  hasKey p.colors c

/-- Sum of the values of an association list: `self.colors.values().sum()`. -/
def sumValues (cs : List (String × Nat)) : Nat :=
  (cs.map Prod.snd).sum

/-- `ManaPool::total()`. -/
def total (p : ManaPool) : Nat :=
  p.generic + sumValues p.colors

/-- `*map.entry(c).or_insert(0) += n` on an association list: update the entry
in place if the key is present, otherwise append a fresh entry. -/
def entryAdd (cs : List (String × Nat)) (c : String) (n : Nat) : List (String × Nat) :=
  if cs.any (fun e => e.1 == c) then
    cs.map (fun e => if e.1 == c then (e.1, e.2 + n) else e)
  else
    cs ++ [(c, n)]

/-- `ManaPool::add_color`. -/
def add_color (p : ManaPool) (c : String) (n : Nat) : ManaPool :=
  { p with colors := entryAdd p.colors c n }

/-- The `required_colors` / `pip_counts` HashMap built from the pip list, as an
association list: one entry per distinct pip color, carrying its multiplicity.
A Rust `HashMap` iterates these entries in an arbitrary order; inside
`can_pay` the entries are only read, and inside `spend` the updates they drive
hit distinct existing keys (guaranteed by `can_pay`), so the iteration order
cannot influence the result.  `List.dedup` order is the representative order
used here. -/
def requiredCounts (pips : List String) : List (String × Nat) :=
  pips.dedup.map (fun c => (c, pips.count c))

/-- `ManaPool::can_pay`: every colored pip requirement is satisfiable, and the
generic counter plus each color's surplus (`count.saturating_sub(used)`)
covers the generic cost. -/
def can_pay (p : ManaPool) (generic : Nat) (pips : List String) : Bool :=
  (requiredCounts pips).all (fun e => decide (e.2 ≤ p.getColor e.1)) &&
  decide (generic ≤
    p.colors.foldl (fun acc e => acc + (e.2 - pips.count e.1)) p.generic)

/-- `*self.colors.entry(color).or_insert(0) -= count` on an association list.
If the key is absent, Rust inserts `0` and the subtraction underflows (panic in
a debug build); that branch is unreachable inside `spend` because `can_pay`
requires every pip color to be present with a sufficient counter.  `Nat`
subtraction truncates there. -/
def entrySub (cs : List (String × Nat)) (c : String) (n : Nat) : List (String × Nat) :=
  if cs.any (fun e => e.1 == c) then
    cs.map (fun e => if e.1 == c then (e.1, e.2 - n) else e)
  else
    cs ++ [(c, 0 - n)]

/-- The `for color_count in self.colors.values_mut()` loop of `spend`: walk the
colors in iteration order, taking `min remaining count` from each counter until
`remaining` is zero.  Returns the updated entries and the leftover `remaining`. -/
def drain (cs : List (String × Nat)) (remaining : Nat) : List (String × Nat) × Nat :=
  match cs with
  | [] => ([], remaining)
  | (c, n) :: rest =>
    if remaining = 0 then ((c, n) :: rest, 0)
    else
      let fromColor := min remaining n
      let res := drain rest (remaining - fromColor)
      ((c, n - fromColor) :: res.1, res.2)

/-- `ManaPool::spend`.  Returns the success flag together with the pool after
the call (`&mut self` in Rust).  On the success path: subtract each color's pip
count, pay the generic cost first from the generic counter
(`from_generic = remaining.min(self.generic)`), then drain the remaining
colored counters in iteration order. -/
def spend (p : ManaPool) (generic : Nat) (pips : List String) : Bool × ManaPool :=
  if p.can_pay generic pips then
    let colors1 := (requiredCounts pips).foldl (fun cs e => entrySub cs e.1 e.2) p.colors
    let fromGeneric := min generic p.generic
    let generic1 := p.generic - fromGeneric
    let remaining := generic - fromGeneric
    let colors2 := (drain colors1 remaining).1
    (true, { generic := generic1, colors := colors2 })
  else
    (false, p)

/-- The keys of the colors map.  A real `HashMap` satisfies `keysNodup`. -/
def keys (cs : List (String × Nat)) : List String :=
  cs.map Prod.fst

end ManaPool

/-- `deck.rs`: `struct DeckFile { name, cards }`. -/
structure DeckFile where
  name : String
  cards : List Card
deriving DecidableEq, Repr

namespace DeckFile

/-- `DeckFile::expand`: replicate every non-commander entry by its repeat
count (`Commander => continue`); the `assert_eq!(deck.len(), 99, ..)` panic is
a fatal validation failure, modelled as `Except.error`. -/
def expand (d : DeckFile) : Except String (List Card) :=
  let deck := d.cards.foldl (fun acc c =>
    match c with
    | Card.Spell _ _ _ _ _ count => acc ++ List.replicate count c
    | Card.Land _ _ _ _ count => acc ++ List.replicate count c
    | Card.Ramp _ _ _ _ count => acc ++ List.replicate count c
    | Card.Commander _ _ _ _ => acc) []
  if deck.length = 99 then Except.ok deck
  else Except.error "Deck must have 99 cards excluding commander"

/-- `DeckFile::commander`: `find` returns the FIRST Commander entry; the
`.expect("Commander card not found in deck")` panic when there is none is
modelled as `none`. -/
def commander (d : DeckFile) : Option Card :=
  d.cards.find? Card.isCommander

/-- `DeckFile::basic_lands`. -/
def basic_lands (d : DeckFile) : List Card :=
  d.cards.filter (fun c =>
    match c with
    | Card.Land _ _ false _ _ => true
    | _ => false)

end DeckFile

/-- `sim.rs`: `struct GameState`. -/
structure GameState where
  hand : List Card
  battlefield : List Card
  graveyard : List Card
  library : List Card
  commander : Option Card
  commander_casts : Nat
  lands_played : Nat
deriving DecidableEq, Repr

namespace GameState

/-- `for _ in 0..n { if let Some(c) = library.pop() { hand.push(c) } }`: draw
`n` cards from the top of the library (`Vec::pop`, the tail of the list) into
the hand, stopping silently when the library is empty. -/
def drawLoop (library hand : List Card) : Nat → List Card × List Card
  | 0 => (hand, library)
  | n + 1 =>
    match library.getLast? with
    | some c => drawLoop library.dropLast (hand ++ [c]) n
    | none => (hand, library)

/-- The keep condition of the mulligan loop:
`total_sources >= 3 && land_count <= 5` where `total_sources` counts lands
plus Ramp cards of generic cost at most 2. -/
def keepHand (hand : List Card) : Bool :=
  let land_count := (hand.filter Card.isLand).length
  let fast_mana := (hand.filter Card.isFastMana).length
  decide (3 ≤ land_count + fast_mana) && decide (land_count ≤ 5)

/-- The mulligan `loop` of `GameState::new`, entered with `hand_size = 7`.
Each iteration clears the hand, reshuffles the library, draws `hand_size`
cards, and keeps them when the keep condition holds or `hand_size == 4`;
otherwise it returns the hand to the library (`library.extend(hand.drain(..))`)
and retries with `hand_size - 1`.  `shuffles k` is the permutation applied by
the `k`-th `library.shuffle(..)` call of the construction.  Rust's loop
variable only takes the values 7, 6, 5, 4; the value 0 (unreachable from
`new`) also stops, for totality. -/
def mulliganLoop (shuffles : Nat → List Card → List Card) (k : Nat)
    (library : List Card) (handSize : Nat) : List Card × List Card :=
  let library1 := shuffles k library
  let res := drawLoop library1 [] handSize
  if keepHand res.1 || handSize == 4 then (res.1, res.2)
  else
    match handSize with
    | 0 => (res.1, res.2)
    | n + 1 => mulliganLoop shuffles (k + 1) (res.2 ++ res.1) n

/-- `GameState::new`.  Faithful to the source, including its card leak: the 7
cards drawn before the mulligan loop are discarded by the `hand.clear()` at
the top of the first loop iteration without ever being returned to the
library (only later iterations run `library.extend(hand.drain(..))`), so
those 7 cards leave the game entirely. -/
def new (shuffles : Nat → List Card → List Card) (library : List Card)
    (commander : Card) : GameState :=
  let library1 := shuffles 0 library
  let firstDraw := drawLoop library1 [] 7
  let res := mulliganLoop shuffles 1 firstDraw.2 7
  { hand := res.1
    battlefield := []
    graveyard := []
    library := res.2
    commander := some commander
    commander_casts := 0
    lands_played := 0 }

/-- `GameState::draw(n)`. -/
def draw (s : GameState) (n : Nat) : GameState :=
  let res := drawLoop s.library s.hand n
  { s with hand := res.1, library := res.2 }

/-- `GameState::discard_to_hand_size`: pop cards off the back of the hand into
the graveyard until at most `max_size` remain (the popped suffix lands in the
graveyard in reverse hand order). -/
def discard_to_hand_size (s : GameState) (max_size : Nat) : GameState :=
  if s.hand.length ≤ max_size then s
  else
    { s with
      hand := s.hand.take max_size
      graveyard := s.graveyard ++ (s.hand.drop max_size).reverse }

/-- `GameState::generate_mana`: one mana per Land/Ramp permanent — nothing for
an empty production set, 1 flexible generic when it produces several colors,
generic for the literal "C", otherwise 1 mana of its single color. -/
def generate_mana (s : GameState) : ManaPool :=
  s.battlefield.foldl (fun mana permanent =>
    match permanent with
    | Card.Land _ produces _ _ _ =>
      if produces.isEmpty then mana
      else if 1 < produces.length then { mana with generic := mana.generic + 1 }
      else
        let c := produces.headD ""
        if c == "C" then { mana with generic := mana.generic + 1 }
        else mana.add_color c 1
    | Card.Ramp _ _ produces _ _ =>
      if produces.isEmpty then mana
      else if 1 < produces.length then { mana with generic := mana.generic + 1 }
      else
        let c := produces.headD ""
        if c == "C" then { mana with generic := mana.generic + 1 }
        else mana.add_color c 1
    | _ => mana) ManaPool.new

/-- The library-search predicate of the fetch-land branch: a non-fetch Land
whose production set intersects the fetch colors. -/
def fetchTarget (fetches : List String) (c : Card) : Bool :=
  match c with
  | Card.Land _ produces2 false _ _ => fetches.any (fun f => produces2.contains f)
  | _ => false

/-- The land-drop step of `play_turn` (sim.rs lines 215–241): remove the first
Land in hand order.  A fetch land searches the library for the first matching
non-fetch land, moves that land to the battlefield, reshuffles the library,
and goes to the graveyard itself (also when the search finds nothing); a
normal land goes straight to the battlefield.  Either way `lands_played` is
incremented.  `shuffle` models the `library.shuffle` call; the `played_cards`
name log is omitted (names only, no feedback into the state). -/
def landDrop (shuffle : List Card → List Card) (s : GameState) : GameState :=
  match s.hand.findIdx? Card.isLand with
  | none => s
  | some pos =>
    let land := s.hand.getD pos default
    let hand1 := s.hand.eraseIdx pos
    match land with
    | Card.Land _ _ true fetches _ =>
      let s1 :=
        match s.library.findIdx? (fetchTarget fetches) with
        | some basic_pos =>
          let basic := s.library.getD basic_pos default
          { s with
            hand := hand1
            battlefield := s.battlefield ++ [basic]
            library := shuffle (s.library.eraseIdx basic_pos) }
        | none => { s with hand := hand1 }
      { s1 with
        graveyard := s1.graveyard ++ [land]
        lands_played := s1.lands_played + 1 }
    | _ =>
      { s with
        hand := hand1
        battlefield := s.battlefield ++ [land]
        lands_played := s.lands_played + 1 }

end GameState

/-- The state manipulated by the casting loop of `play_turn` (sim.rs lines
249–333): the hand/battlefield/graveyard/commander portion of the game state
plus the turn-local mana pool and counters.  The `played_cards` name log is
omitted (names only, no feedback into the state). -/
structure CastState where
  hand : List Card
  battlefield : List Card
  graveyard : List Card
  commander : Option Card
  commander_casts : Nat
  mana : ManaPool
  cards_cast : Nat
  cards_drawn : Nat
deriving DecidableEq, Repr

namespace CastState

/-- Whether `pat` begins `hay`, on character lists. -/
def leadsWith : List Char → List Char → Bool
  | [], _ => true
  | _ :: _, [] => false
  | a :: as, b :: bs => a == b && leadsWith as bs

/-- Whether `pat` occurs contiguously in `hay`, on character lists. -/
def containsSeq (pat : List Char) : List Char → Bool
  | [] => leadsWith pat []
  | c :: rest => leadsWith pat (c :: rest) || containsSeq pat rest

/-- `type_lower.contains("instant") || type_lower.contains("sorcery")` on the
lower-cased type line. -/
def isInstantSorcery (type_line : String) : Bool :=
  containsSeq "instant".data (type_line.toLower).data
    || containsSeq "sorcery".data (type_line.toLower).data

/-- The ramp loop `for i in (0..state.hand.len()).rev()`, entered with the
hand length: the argument counts the indices still to try, so index `i` is
tried before indices below it.  A Ramp at the index is cast as soon as
`mana.spend(generic, &[])` succeeds (a failed `spend` returns the pool
unchanged); it then leaves the hand for the battlefield and its draw count
accrues. -/
def rampTry (s : CastState) : Nat → Option CastState
  | 0 => none
  | i + 1 =>
    match s.hand.getD i default with
    | Card.Ramp name generic produces features count =>
      let res := s.mana.spend generic []
      if res.1 then
        some { s with
          hand := s.hand.eraseIdx i
          battlefield := s.battlefield ++ [Card.Ramp name generic produces features count]
          mana := res.2
          cards_cast := s.cards_cast + 1
          cards_drawn := s.cards_drawn
            + (Card.Ramp name generic produces features count).draw_count }
      else rampTry { s with mana := res.2 } i
    | _ => rampTry s i

/-- Step a of the casting loop: the ramp pass. -/
def rampStep (s : CastState) : Option CastState :=
  rampTry s s.hand.length

/-- Step b of the casting loop: cast the commander with tax
(`2 * commander_casts`), guarded by `mana.total() > 0`. -/
def commanderStep (s : CastState) : Option CastState :=
  match s.commander with
  | some cmd =>
    match cmd with
    | Card.Commander name generic pips features =>
      let tax := s.commander_casts * 2
      let total_generic := generic + tax
      if 0 < s.mana.total then
        let res := s.mana.spend total_generic pips
        if res.1 then
          some { s with
            commander := none
            battlefield := s.battlefield ++ [Card.Commander name generic pips features]
            commander_casts := s.commander_casts + 1
            mana := res.2
            cards_cast := s.cards_cast + 1 }
        else none
      else none
    | _ => none
  | none => none

/-- The loop body of the best-spell scan of step c: an affordable Spell at
index `i` becomes the candidate when there is none yet, or when it has a draw
feature and the current candidate has none
(`best_spell.is_none() || (has_draw && !best_has_draw)`). -/
def bestSpellStep (mana : ManaPool) (c : Card) (i : Nat)
    (best : Option (Nat × Bool)) : Option (Nat × Bool) :=
  match c with
  | Card.Spell _ generic pips _ _ _ =>
    if mana.can_pay generic pips then
      match best with
      | none => some (i, c.has_draw)
      | some (j, bestDraw) =>
        if c.has_draw && !bestDraw then some (i, c.has_draw)
        else some (j, bestDraw)
    else best
  | _ => best

/-- The best-spell scan of step c (`for i in 0..state.hand.len()`). -/
def bestSpellScan (mana : ManaPool) :
    List Card → Nat → Option (Nat × Bool) → Option (Nat × Bool)
  | [], _, best => best
  | c :: rest, i, best => bestSpellScan mana rest (i + 1) (bestSpellStep mana c i best)

/-- Step c of the casting loop: cast the selected spell; one-shot types (type
line containing "instant" or "sorcery", case-insensitively) go to the
graveyard, permanents to the battlefield. -/
def spellStep (s : CastState) : Option CastState :=
  match bestSpellScan s.mana s.hand 0 none with
  | none => none
  | some (i, _) =>
    match s.hand.getD i default with
    | Card.Spell name generic pips features type_line count =>
      let res := s.mana.spend generic pips
      if res.1 then
        let card := Card.Spell name generic pips features type_line count
        some { s with
          hand := s.hand.eraseIdx i
          graveyard :=
            if isInstantSorcery type_line then s.graveyard ++ [card]
            else s.graveyard
          battlefield :=
            if isInstantSorcery type_line then s.battlefield
            else s.battlefield ++ [card]
          mana := res.2
          cards_cast := s.cards_cast + 1
          cards_drawn := s.cards_drawn + card.draw_count }
      else none
    | _ => none

/-- One iteration of the casting loop: ramp first, then commander, then
spell (`if played_anything { continue; }` after each); `none` when no play
was made and the loop ends. -/
def pass (s : CastState) : Option CastState :=
  match rampStep s with
  | some s1 => some s1
  | none =>
    match commanderStep s with
    | some s2 => some s2
    | none => spellStep s

/-- The casting loop with explicit fuel: the final state together with the
number of productive passes taken. -/
def runPasses : Nat → CastState → CastState × Nat
  | 0, s => (s, 0)
  | fuel + 1, s =>
    match pass s with
    | none => (s, 0)
    | some s1 =>
      let res := runPasses fuel s1
      (res.1, res.2 + 1)

/-- Loop-variant measure: cards in hand plus one for an uncast commander. -/
def measure (s : CastState) : Nat :=
  s.hand.length + (if s.commander.isSome then 1 else 0)

end CastState

/-- One per-turn outcome tuple pushed by a simulation worker:
`(screw, flood, ok, mana_available, mana_spent, cards_cast, hand_size)`. -/
structure TurnTuple where
  screw : Nat
  flood : Nat
  ok : Nat
  mana_available : Nat
  mana_spent : Nat
  cards_cast : Nat
  hand_size : Nat
deriving DecidableEq, Repr

instance : Inhabited TurnTuple := ⟨⟨0, 0, 0, 0, 0, 0, 0⟩⟩

/-- The componentwise accumulation performed by the reduction loop of `run`. -/
def TurnTuple.add (a b : TurnTuple) : TurnTuple :=
  ⟨a.screw + b.screw, a.flood + b.flood, a.ok + b.ok,
   a.mana_available + b.mana_available, a.mana_spent + b.mana_spent,
   a.cards_cast + b.cards_cast, a.hand_size + b.hand_size⟩

/-- `sim.rs`: the per-turn arrays of `struct Stats` (the sampled example
traces are name logs and are not modelled).  The `f64` divisions are modelled
over `ℚ`; the theorems below only ever compare divisions with identical
operands, which are equal in any deterministic arithmetic. -/
structure Stats where
  screw : List ℚ
  flood : List ℚ
  ok : List ℚ
  avg_mana_spent : List ℚ
  avg_mana_available : List ℚ
  avg_cards_cast : List ℚ
  avg_hand_size : List ℚ
deriving DecidableEq, Repr

/-- The inner fold of the reduction loop at the end of `run` (sim.rs lines
426–444): for a turn `t`, accumulate `r[t]` over all simulation results. -/
def turnTotals (results : List (List TurnTuple)) (t : Nat) : TurnTuple :=
  results.foldl (fun acc r => acc.add (r.getD t default)) default

/-- The reduction of `run` (sim.rs lines 424–454): per-turn counts and sums
over all simulations, divided by the simulation count. -/
def aggregate (sims turns : Nat) (results : List (List TurnTuple)) : Stats :=
  let n : ℚ := (sims : ℚ)
  { screw := (List.range turns).map (fun t => ((turnTotals results t).screw : ℚ) / n)
    flood := (List.range turns).map (fun t => ((turnTotals results t).flood : ℚ) / n)
    ok := (List.range turns).map (fun t => ((turnTotals results t).ok : ℚ) / n)
    avg_mana_spent := (List.range turns).map (fun t => ((turnTotals results t).mana_spent : ℚ) / n)
    avg_mana_available := (List.range turns).map (fun t => ((turnTotals results t).mana_available : ℚ) / n)
    avg_cards_cast := (List.range turns).map (fun t => ((turnTotals results t).cards_cast : ℚ) / n)
    avg_hand_size := (List.range turns).map (fun t => ((turnTotals results t).hand_size : ℚ) / n) }


/-! ### Concrete instances used by specific theorems below -/

/-- A 1-generic sorcery. -/
def spellEx : Card := Card.Spell "S" 1 [] [] "Sorcery" 1

/-- A basic green land. -/
def landEx : Card := Card.Land "Forest" ["G"] false [] 1

/-- A fetch land searching for a green producer. -/
def fetchEx : Card := Card.Land "Fetch" [] true ["G"] 1

/-- A sample commander. -/
def cmdEx : Card := Card.Commander "Cmdr" 2 ["G"] []

/-- A 99-card shuffle pool whose first mulligan redraw (library positions
85–91 under the identity shuffle) holds 4 lands and 3 spells and is kept. -/
def lib99ex : List Card :=
  List.replicate 85 spellEx ++ List.replicate 4 landEx ++ List.replicate 3 spellEx
    ++ List.replicate 7 spellEx

/-- A library of exactly 4 cards. -/
def lib4ex : List Card := List.replicate 4 spellEx

/-- A deck with two Commander entries whose non-commander entries expand to 99
cards. -/
def deckTwoCommanders : DeckFile :=
  { name := "two-commanders"
    cards := [Card.Commander "A" 0 [] [], Card.Commander "B" 0 [] [],
      Card.Land "Forest" ["G"] false [] 99] }

/-- A zero-cost Ramp artifact named A. -/
def rampAex : Card := Card.Ramp "A" 0 ["C"] [] 1

/-- A zero-cost Ramp artifact named B. -/
def rampBex : Card := Card.Ramp "B" 0 ["C"] [] 1

/-- Casting-loop state with both ramps in hand and 2 generic mana. -/
def castEx6 : CastState :=
  { hand := [rampAex, rampBex], battlefield := [], graveyard := [],
    commander := none, commander_casts := 0,
    mana := { generic := 2, colors := [] }, cards_cast := 0, cards_drawn := 0 }

/-- Game state for the fetch-land witness: fetch land in hand, matching basic
land in the library. -/
def gsFetchEx : GameState :=
  { hand := [fetchEx], battlefield := [], graveyard := [],
    library := [landEx, spellEx],
    commander := none, commander_casts := 0, lands_played := 0 }

/-- A colors map iterating W before U. -/
def p1ex : ManaPool := { generic := 0, colors := [("W", 1), ("U", 1)] }

/-- The same map contents iterating U before W. -/
def p2ex : ManaPool := { generic := 0, colors := [("U", 1), ("W", 1)] }

/-- A per-simulation outcome row of one turn. -/
def row1ex : List TurnTuple := [⟨1, 0, 0, 2, 1, 1, 5⟩]

/-- Another per-simulation outcome row of one turn. -/
def row2ex : List TurnTuple := [⟨0, 1, 0, 3, 0, 0, 6⟩]


/-- C1: `ManaPool.spend` is all-or-nothing — whenever `can_pay` is false,
`spend` reports failure and returns the pool exactly as it was, leaving the
generic counter and every color counter unchanged. -/
theorem spend_failure_leaves_pool_unchanged (p : ManaPool) (generic : Nat)
    (pips : List String) (h : p.can_pay generic pips = false) :
    p.spend generic pips = (false, p) := by
  unfold ManaPool.spend
  simp [h]

/-- Witness for C1 at a concrete input: the fresh pool cannot pay a generic
cost of 1, and `spend` leaves it untouched. -/
theorem spend_failure_leaves_pool_unchanged_witness :
    ManaPool.new.can_pay 1 [] = false ∧
    ManaPool.new.spend 1 [] = (false, ManaPool.new) :=
  ⟨by decide, spend_failure_leaves_pool_unchanged ManaPool.new 1 [] (by decide)⟩

namespace ManaPool

/-! ### Association-list lemmas for the colors map -/

theorem hasKey_eq_keys_any (cs : List (String × Nat)) (c : String) :
    hasKey cs c = (keys cs).any (fun k => k == c) := by
  induction cs with
  | nil => rfl
  | cons e rest ih =>
    unfold hasKey keys at ih ⊢
    rw [List.any_cons, List.map_cons, List.any_cons, ih]

theorem lookup_eq_none_of_not_hasKey {cs : List (String × Nat)} {c : String}
    (h : hasKey cs c = false) : List.lookup c cs = none := by
  rw [List.lookup_eq_none_iff]
  intro e he
  have h2 : (e.1 == c) = false := by
    unfold hasKey at h
    simpa using (List.any_eq_false.mp h) e he
  have h3 : e.1 ≠ c := by simpa using h2
  simpa [bne_iff_ne] using Ne.symm h3

theorem hasKey_of_lookupVal_pos {cs : List (String × Nat)} {c : String}
    (h : 0 < lookupVal cs c) : hasKey cs c = true := by
  by_contra hcon
  have hf : hasKey cs c = false := by
    cases hh : hasKey cs c with
    | false => rfl
    | true => exact absurd hh hcon
  rw [lookupVal, lookup_eq_none_of_not_hasKey hf] at h
  simp at h

theorem keys_map_of_fst_eq {f : String × Nat → String × Nat}
    (hf : ∀ e, (f e).1 = e.1) (cs : List (String × Nat)) :
    keys (cs.map f) = keys cs := by
  unfold keys
  rw [List.map_map]
  exact List.map_congr_left (fun e _ => hf e)

theorem hasKey_map_of_fst_eq {f : String × Nat → String × Nat}
    (hf : ∀ e, (f e).1 = e.1) (cs : List (String × Nat)) (c : String) :
    hasKey (cs.map f) c = hasKey cs c := by
  rw [hasKey_eq_keys_any, hasKey_eq_keys_any, keys_map_of_fst_eq hf]

/-- In a map with `Nodup` keys, every entry's value is the lookup at its key. -/
theorem snd_eq_lookupVal_of_mem {cs : List (String × Nat)}
    (hnd : (keys cs).Nodup) {e : String × Nat} (he : e ∈ cs) :
    e.2 = lookupVal cs e.1 := by
  induction cs with
  | nil => cases he
  | cons hd rest ih =>
    obtain ⟨k, v⟩ := hd
    simp only [keys, List.map_cons, List.nodup_cons] at hnd
    obtain ⟨hk, hnd2⟩ := hnd
    rcases List.mem_cons.mp he with he1 | he2
    · subst he1
      simp [lookupVal, List.lookup_cons]
    · have hne : e.1 ≠ k := by
        intro hcon
        exact hk (hcon ▸ (List.mem_map.mpr ⟨e, he2, rfl⟩))
      have : (e.1 == k) = false := by simpa using hne
      rw [lookupVal, List.lookup_cons]
      simp only [this]
      exact ih hnd2 he2

/-! ### `can_pay` characterization -/

theorem foldl_add_sub_eq (cs : List (String × Nat)) (pips : List String) (n : Nat) :
    cs.foldl (fun acc e => acc + (e.2 - pips.count e.1)) n
      = n + (cs.map (fun e => e.2 - pips.count e.1)).sum := by
  induction cs generalizing n with
  | nil => simp
  | cons e rest ih => simp [ih, Nat.add_assoc]

theorem can_pay_iff (p : ManaPool) (g : Nat) (pips : List String) :
    p.can_pay g pips = true ↔
      (∀ e ∈ requiredCounts pips, e.2 ≤ p.getColor e.1) ∧
      g ≤ p.generic + (p.colors.map (fun e => e.2 - pips.count e.1)).sum := by
  unfold can_pay
  rw [foldl_add_sub_eq]
  simp [List.all_eq_true]

theorem count_le_getColor_of_can_pay {p : ManaPool} {g : Nat} {pips : List String}
    (h : p.can_pay g pips = true) (c : String) :
    pips.count c ≤ p.getColor c := by
  rcases Nat.eq_zero_or_pos (pips.count c) with hz | hpos
  · omega
  · have hc : c ∈ pips := List.count_pos_iff.mp hpos
    have hmem : (c, pips.count c) ∈ requiredCounts pips :=
      List.mem_map.mpr ⟨c, List.mem_dedup.mpr hc, rfl⟩
    exact ((can_pay_iff p g pips).mp h).1 _ hmem

theorem hasColor_of_can_pay {p : ManaPool} {g : Nat} {pips : List String}
    (h : p.can_pay g pips = true) {c : String} (hc : c ∈ pips) :
    hasKey p.colors c = true := by
  have h1 : 0 < pips.count c := List.count_pos_iff.mpr hc
  have h2 : 0 < p.getColor c := Nat.lt_of_lt_of_le h1 (count_le_getColor_of_can_pay h c)
  exact hasKey_of_lookupVal_pos h2

/-! ### The pip-subtraction pass of `spend` -/

/-- Value associated to a key in `requiredCounts`. -/
theorem lookupVal_requiredCounts (pips : List String) (c : String) :
    lookupVal (requiredCounts pips) c = pips.count c := by
  unfold requiredCounts
  have : ∀ ks : List String, ks ⊆ pips.dedup →
      lookupVal (ks.map (fun k => (k, pips.count k))) c
        = if c ∈ ks then pips.count c else 0 := by
    intro ks
    induction ks with
    | nil => intro _; simp [lookupVal]
    | cons k rest ih =>
      intro hsub
      rw [List.map_cons, lookupVal, List.lookup_cons]
      cases hck : c == k with
      | true =>
        have : c = k := by simpa [beq_iff_eq] using hck
        subst this
        simp
      | false =>
        have hne : c ≠ k := by simpa [beq_iff_eq] using hck
        have := ih (fun x hx => hsub (List.mem_cons_of_mem _ hx))
        rw [lookupVal] at this
        rw [this]
        simp [List.mem_cons, hne]
  rw [this pips.dedup (fun x hx => hx)]
  by_cases hc : c ∈ pips.dedup
  · simp [hc]
  · have : c ∉ pips := fun hcon => hc (List.mem_dedup.mpr hcon)
    simp [hc, List.count_eq_zero.mpr this]

theorem keys_requiredCounts (pips : List String) :
    keys (requiredCounts pips) = pips.dedup := by
  unfold keys requiredCounts
  rw [List.map_map]
  have : (Prod.fst ∘ fun c : String => (c, pips.count c)) = id := by
    funext c; rfl
  rw [this, List.map_id]

/-- Bridge lemma: folding `entrySub` over a request map whose keys are distinct
and all present in `cs` is pointwise subtraction of the requested amounts. -/
theorem foldl_entrySub_eq_map (reqs : List (String × Nat)) (cs : List (String × Nat))
    (hnd : (keys reqs).Nodup)
    (hpres : ∀ e ∈ reqs, hasKey cs e.1 = true) :
    reqs.foldl (fun acc e => entrySub acc e.1 e.2) cs
      = cs.map (fun e => (e.1, e.2 - lookupVal reqs e.1)) := by
  induction reqs generalizing cs with
  | nil =>
    simp only [List.foldl_nil, lookupVal, List.lookup_nil, Option.getD_none, Nat.sub_zero]
    have : (fun e : String × Nat => (e.1, e.2)) = id := by
      funext e; rfl
    rw [this, List.map_id]
  | cons req rest ih =>
    obtain ⟨c, k⟩ := req
    simp only [List.foldl_cons]
    have hpresc : hasKey cs c = true := hpres (c, k) (List.mem_cons_self _ _)
    have hsub1 : entrySub cs c k
        = cs.map (fun e => if e.1 == c then (e.1, e.2 - k) else e) := by
      unfold entrySub
      rw [if_pos]
      simpa [hasKey] using hpresc
    rw [hsub1]
    simp only [keys, List.map_cons, List.nodup_cons] at hnd
    obtain ⟨hck, hnd2⟩ := hnd
    have hfst : ∀ e : String × Nat,
        ((if e.1 == c then (e.1, e.2 - k) else e) : String × Nat).1 = e.1 := by
      intro e
      cases h : e.1 == c <;> simp
    have hpres2 : ∀ e ∈ rest, hasKey (cs.map (fun e => if e.1 == c then (e.1, e.2 - k) else e)) e.1 = true := by
      intro e he
      rw [hasKey_map_of_fst_eq hfst]
      exact hpres e (List.mem_cons_of_mem _ he)
    rw [ih _ hnd2 hpres2, List.map_map]
    apply List.map_congr_left
    intro e _
    simp only [Function.comp]
    cases hec : e.1 == c with
    | true =>
      have heq : e.1 = c := by simpa [beq_iff_eq] using hec
      have hrest : List.lookup e.1 rest = none := by
        apply lookup_eq_none_of_not_hasKey
        rw [hasKey_eq_keys_any]
        cases hany : (keys rest).any (fun x => x == e.1) with
        | false => rfl
        | true =>
          exfalso
          obtain ⟨x, hx, hxe⟩ := List.any_eq_true.mp hany
          have : x = e.1 := by simpa [beq_iff_eq] using hxe
          exact hck (heq ▸ this ▸ hx)
      have hv : lookupVal ((c, k) :: rest) e.1 = k := by
        rw [lookupVal, List.lookup_cons]
        simp [hec]
      have hv2 : lookupVal rest e.1 = 0 := by
        rw [lookupVal, hrest]
        rfl
      simp only [hec, if_true, hv, hv2, Nat.sub_zero]
    | false =>
      have hv : lookupVal ((c, k) :: rest) e.1 = lookupVal rest e.1 := by
        rw [lookupVal, lookupVal, List.lookup_cons]
        simp [hec]
      simp [hec, hv]

/-- The pip-subtraction pass of `spend`, under `can_pay`: pointwise
subtraction of each color's pip multiplicity. -/
theorem pip_pass_eq_map {p : ManaPool} {g : Nat} {pips : List String}
    (h : p.can_pay g pips = true) :
    (requiredCounts pips).foldl (fun cs e => entrySub cs e.1 e.2) p.colors
      = p.colors.map (fun e => (e.1, e.2 - pips.count e.1)) := by
  have hnd : (keys (requiredCounts pips)).Nodup := by
    rw [keys_requiredCounts]; exact List.nodup_dedup _
  have hpres : ∀ e ∈ requiredCounts pips, hasKey p.colors e.1 = true := by
    intro e he
    obtain ⟨c, hc, hce⟩ := List.mem_map.mp he
    subst hce
    exact hasColor_of_can_pay h (List.mem_dedup.mp hc)
  rw [foldl_entrySub_eq_map _ _ hnd hpres]
  apply List.map_congr_left
  intro e _
  rw [lookupVal_requiredCounts]

end ManaPool

namespace ManaPool

theorem mem_keys_of_hasKey {cs : List (String × Nat)} {c : String}
    (h : hasKey cs c = true) : c ∈ keys cs := by
  rw [hasKey_eq_keys_any] at h
  obtain ⟨x, hx, hxe⟩ := List.any_eq_true.mp h
  have : x = c := by simpa using hxe
  exact this ▸ hx

theorem sum_sub_add_sum (cs : List (String × Nat)) (f : String → Nat)
    (h : ∀ e ∈ cs, f e.1 ≤ e.2) :
    (cs.map (fun e => e.2 - f e.1)).sum + (cs.map (fun e => f e.1)).sum
      = (cs.map Prod.snd).sum := by
  induction cs with
  | nil => rfl
  | cons e rest ih =>
    have h1 := h e (List.mem_cons_self _ _)
    have h2 := ih (fun x hx => h x (List.mem_cons_of_mem _ hx))
    simp only [List.map_cons, List.sum_cons]
    omega

theorem sum_indicator_zero (ks : List String) (a : String) (ha : a ∉ ks) :
    (ks.map (fun c => if (a == c) = true then 1 else 0)).sum = 0 := by
  induction ks with
  | nil => rfl
  | cons k rest ih =>
    have hne : a ≠ k := fun hcon => ha (hcon ▸ List.mem_cons_self _ _)
    have hf : (a == k) = false := by simpa using hne
    simp only [List.map_cons, List.sum_cons, hf]
    rw [ih (fun hx => ha (List.mem_cons_of_mem _ hx))]
    simp

theorem sum_indicator_one (ks : List String) (a : String) (hnd : ks.Nodup)
    (ha : a ∈ ks) :
    (ks.map (fun c => if (a == c) = true then 1 else 0)).sum = 1 := by
  induction ks with
  | nil => cases ha
  | cons k rest ih =>
    rw [List.nodup_cons] at hnd
    obtain ⟨hk, hnd2⟩ := hnd
    rcases List.mem_cons.mp ha with h1 | h2
    · subst h1
      have ht : (a == a) = true := by simp
      simp only [List.map_cons, List.sum_cons, ht, if_true]
      rw [sum_indicator_zero rest a hk]
    · have hne : a ≠ k := fun hcon => hk (hcon ▸ h2)
      have hf : (a == k) = false := by simpa using hne
      simp only [List.map_cons, List.sum_cons, hf]
      rw [ih hnd2 h2]
      simp

theorem sum_counts_eq_length (ks : List String) (l : List String)
    (hnd : ks.Nodup) (hsub : ∀ c ∈ l, c ∈ ks) :
    (ks.map (fun c => l.count c)).sum = l.length := by
  induction l with
  | nil =>
    have : ks.map (fun c => List.count c ([] : List String)) = ks.map (fun _ => 0) :=
      List.map_congr_left (fun c _ => List.count_nil c)
    simp [this]
  | cons a rest ih =>
    have hstep : ks.map (fun c => (a :: rest).count c)
        = ks.map (fun c => rest.count c + if (a == c) = true then 1 else 0) :=
      List.map_congr_left (fun c _ => List.count_cons c a rest)
    rw [hstep, List.sum_map_add, ih (fun c hc => hsub c (List.mem_cons_of_mem _ hc)),
      sum_indicator_one ks a hnd (hsub a (List.mem_cons_self _ _))]
    simp [Nat.add_comm]

theorem drain_spec (cs : List (String × Nat)) (remaining : Nat) :
    sumValues (drain cs remaining).1 + min remaining (sumValues cs) = sumValues cs ∧
    (drain cs remaining).2 + min remaining (sumValues cs) = remaining := by
  induction cs generalizing remaining with
  | nil => simp [drain, sumValues]
  | cons e rest ih =>
    obtain ⟨c, n⟩ := e
    by_cases h0 : remaining = 0
    · subst h0
      simp [drain, sumValues]
    · have ih2 := ih (remaining - min remaining n)
      simp only [drain, if_neg h0, sumValues, List.map_cons, List.sum_cons] at ih2 ⊢
      omega

/-- Shared accounting lemma for `spend` on the success path: it succeeds, and
the pool's total drops by exactly `generic + pips.length`. -/
theorem spend_success_total (p : ManaPool) (g : Nat) (pips : List String)
    (hnd : (keys p.colors).Nodup) (h : p.can_pay g pips = true) :
    (p.spend g pips).1 = true ∧
    (p.spend g pips).2.total + (g + pips.length) = p.total := by
  constructor
  · unfold spend
    rw [if_pos h]
  · unfold spend
    rw [if_pos h]
    show ((p.generic - min g p.generic)
        + sumValues (drain
            ((requiredCounts pips).foldl (fun cs e => entrySub cs e.1 e.2) p.colors)
            (g - min g p.generic)).1)
        + (g + pips.length) = p.generic + sumValues p.colors
    rw [pip_pass_eq_map h]
    have hcnt : ∀ e ∈ p.colors, pips.count e.1 ≤ e.2 := by
      intro e he
      rw [snd_eq_lookupVal_of_mem hnd he]
      exact count_le_getColor_of_can_pay h e.1
    have hcomp : (Prod.snd ∘ fun e : String × Nat => (e.1, e.2 - pips.count e.1))
        = fun e : String × Nat => e.2 - pips.count e.1 := by
      funext e; rfl
    have hsum1 : sumValues (p.colors.map (fun e => (e.1, e.2 - pips.count e.1)))
        + (p.colors.map (fun e => pips.count e.1)).sum = sumValues p.colors := by
      unfold sumValues
      rw [List.map_map, hcomp]
      exact sum_sub_add_sum p.colors (fun c => pips.count c) hcnt
    have hlen : (p.colors.map (fun e => pips.count e.1)).sum = pips.length := by
      have hmm : (p.colors.map (fun e => pips.count e.1))
          = (keys p.colors).map (fun c => pips.count c) := by
        unfold keys
        rw [List.map_map]
        rfl
      rw [hmm]
      apply sum_counts_eq_length _ _ hnd
      intro c hc
      exact mem_keys_of_hasKey (hasColor_of_can_pay h hc)
    have hgen : g ≤ p.generic
        + sumValues (p.colors.map (fun e => (e.1, e.2 - pips.count e.1))) := by
      have h2 := ((can_pay_iff p g pips).mp h).2
      unfold sumValues
      rw [List.map_map, hcomp]
      exact h2
    obtain ⟨hdr1, _⟩ := drain_spec
      (p.colors.map (fun e => (e.1, e.2 - pips.count e.1))) (g - min g p.generic)
    omega

end ManaPool

/-- C2: whenever `can_pay` is true, `spend` succeeds, no color counter
underflows (every color's pip requirement is at most its counter — the only
unguarded subtraction in `spend`; the generic and drain subtractions are
`min`-clamped by construction), and the total mana removed is exactly the
generic cost plus the number of pips.  The `Nodup` hypothesis is the `HashMap`
representation invariant (a map has no duplicate keys). -/
theorem spend_success_exact_payment (p : ManaPool) (g : Nat) (pips : List String)
    (hnd : (ManaPool.keys p.colors).Nodup) (h : p.can_pay g pips = true) :
    (p.spend g pips).1 = true ∧
    (∀ c, pips.count c ≤ p.getColor c) ∧
    (p.spend g pips).2.total + (g + pips.length) = p.total := by
  obtain ⟨h1, h2⟩ := ManaPool.spend_success_total p g pips hnd h
  exact ⟨h1, ManaPool.count_le_getColor_of_can_pay h, h2⟩

/-- Witness for C2 at a concrete input: a pool with 2 generic and one white
mana pays a cost of 1 generic plus one white pip; total drops from 3 to 1. -/
theorem spend_success_exact_payment_witness :
    ((ManaPool.keys (ManaPool.mk 2 [("W", 1), ("U", 0)]).colors).Nodup ∧
      (ManaPool.mk 2 [("W", 1), ("U", 0)]).can_pay 1 ["W"] = true) ∧
    (((ManaPool.mk 2 [("W", 1), ("U", 0)]).spend 1 ["W"]).1 = true ∧
      (∀ c, (["W"] : List String).count c ≤ (ManaPool.mk 2 [("W", 1), ("U", 0)]).getColor c) ∧
      ((ManaPool.mk 2 [("W", 1), ("U", 0)]).spend 1 ["W"]).2.total + (1 + (["W"] : List String).length)
        = (ManaPool.mk 2 [("W", 1), ("U", 0)]).total) :=
  ⟨⟨by decide, by decide⟩,
    spend_success_exact_payment (ManaPool.mk 2 [("W", 1), ("U", 0)]) 1 ["W"]
      (by decide) (by decide)⟩

/-- C3 (failing evaluation): game-state construction does NOT conserve cards.
For a concrete 99-card shuffle pool (identity shuffles; the first mulligan
redraw is kept), the constructed hand and library together hold 92 cards, not
99: the 7 cards drawn before the mulligan loop are erased by `hand.clear()`
without ever being returned to the library. -/
theorem gameState_new_loses_first_seven :
    lib99ex.length = 99 ∧
    (GameState.new (fun _ l => l) lib99ex cmdEx).hand.length = 7 ∧
    (GameState.new (fun _ l => l) lib99ex cmdEx).library.length = 85 ∧
    (GameState.new (fun _ l => l) lib99ex cmdEx).hand.length
      + (GameState.new (fun _ l => l) lib99ex cmdEx).library.length = 92 := by
  decide

/-- C4 (failing evaluation): with a library of exactly 4 cards the mulligan
loop returns an EMPTY hand, not one of at least 4 cards: the pre-loop draw
consumed all 4 cards, `hand.clear()` discarded them, every redraw then finds
an empty library, and the loop bottoms out at `hand_size == 4` with 0 cards
(the loop itself still runs its at most 4 iterations). -/
theorem gameState_new_four_card_library_empty_hand :
    lib4ex.length = 4 ∧
    (GameState.new (fun _ l => l) lib4ex cmdEx).hand.length = 0 := by
  decide

/-- C5 (counterexample): a deck with TWO Commander entries is NOT rejected —
`expand()` succeeds (99 cards) and `commander()` succeeds, returning the first
Commander entry; no fatal validation failure occurs anywhere. -/
theorem deck_two_commanders_not_rejected :
    (deckTwoCommanders.expand).isOk = true ∧
    deckTwoCommanders.commander = some (Card.Commander "A" 0 [] []) := by
  decide

/-- C5 (amended): `expand()` yields exactly 99 cards whenever it succeeds and
fails fatally otherwise; `commander()` fails fatally exactly when the deck has
no Commander entry, and any card it yields is a Commander-kind card.  A deck
with two (or more) Commander entries is NOT rejected: `commander()` simply
returns the first one (see the counterexample). -/
theorem expand_commander_validation (d : DeckFile) :
    (∀ l, d.expand = Except.ok l → l.length = 99) ∧
    (d.commander = none ↔ ∀ c ∈ d.cards, c.isCommander = false) ∧
    (∀ c, d.commander = some c → c.isCommander = true) := by
  refine ⟨?_, ?_, ?_⟩
  · intro l hl
    unfold DeckFile.expand at hl
    simp only [] at hl
    split at hl
    · injection hl with hl2
      subst hl2
      assumption
    · exact absurd hl (by simp)
  · unfold DeckFile.commander
    rw [List.find?_eq_none]
    constructor
    · intro h c hc
      simpa using h c hc
    · intro h c hc
      simpa using h c hc
  · intro c hc
    exact List.find?_some hc

/-- Witness for the amended C5 at a concrete input: applied to the
two-commander deck, the card returned by `commander()` is Commander-kind. -/
theorem expand_commander_validation_witness :
    (Card.Commander "A" 0 [] []).isCommander = true :=
  (expand_commander_validation deckTwoCommanders).2.2 (Card.Commander "A" 0 [] []) rfl

namespace ManaPool

/-- The success flag of `spend` is exactly the `can_pay` verdict. -/
theorem spend_fst_eq_can_pay (p : ManaPool) (g : Nat) (pips : List String) :
    (p.spend g pips).1 = p.can_pay g pips := by
  cases h : p.can_pay g pips with
  | true => simp [spend, h]
  | false => simp [spend, h]

/-- Helper form of the all-or-nothing property, shared by later proofs. -/
theorem spend_not_can_pay {p : ManaPool} {g : Nat} {pips : List String}
    (h : p.can_pay g pips = false) : p.spend g pips = (false, p) := by
  simp [spend, h]

theorem lookup_eq_some_mem {cs : List (String × Nat)} {c : String} {v : Nat}
    (h : List.lookup c cs = some v) : (c, v) ∈ cs := by
  induction cs with
  | nil => simp [List.lookup] at h
  | cons e rest ih =>
    obtain ⟨k, w⟩ := e
    rw [List.lookup_cons] at h
    cases hck : c == k with
    | true =>
      have hceq : c = k := by simpa using hck
      rw [hck] at h
      injection h with hv
      subst hceq hv
      exact List.mem_cons_self _ _
    | false =>
      rw [hck] at h
      exact List.mem_cons_of_mem _ (ih h)

theorem lookup_of_mem_nodup {cs : List (String × Nat)} {c : String} {v : Nat}
    (hnd : (keys cs).Nodup) (h : (c, v) ∈ cs) : List.lookup c cs = some v := by
  induction cs with
  | nil => cases h
  | cons e rest ih =>
    obtain ⟨k, w⟩ := e
    simp only [keys, List.map_cons, List.nodup_cons] at hnd
    obtain ⟨hk, hnd2⟩ := hnd
    rcases List.mem_cons.mp h with h1 | h2
    · injection h1 with hc hv
      subst hc hv
      rw [List.lookup_cons]
      simp
    · have hne : c ≠ k := by
        intro hcon
        subst hcon
        exact hk (List.mem_map.mpr ⟨(c, v), h2, rfl⟩)
      have hck : (c == k) = false := by simpa using hne
      rw [List.lookup_cons, hck]
      exact ih hnd2 h2

/-- With `Nodup` keys, `lookup` only depends on the map contents, not on the
iteration order. -/
theorem lookup_perm {cs ds : List (String × Nat)} (hperm : cs.Perm ds)
    (hnd : (keys cs).Nodup) (c : String) :
    List.lookup c cs = List.lookup c ds := by
  have hndd : (keys ds).Nodup := ((hperm.map Prod.fst).nodup_iff).mp hnd
  cases h : List.lookup c cs with
  | some v =>
    exact (lookup_of_mem_nodup hndd (hperm.mem_iff.mp (lookup_eq_some_mem h))).symm
  | none =>
    cases h2 : List.lookup c ds with
    | none => rfl
    | some v =>
      exfalso
      have : (c, v) ∈ cs := hperm.mem_iff.mpr (lookup_eq_some_mem h2)
      rw [lookup_of_mem_nodup hnd this] at h
      exact Option.noConfusion h

theorem all_eq_of_pointwise {α : Type} (l : List α) (f g : α → Bool)
    (h : ∀ x ∈ l, f x = g x) : l.all f = l.all g := by
  induction l with
  | nil => rfl
  | cons a rest ih =>
    rw [List.all_cons, List.all_cons, h a (List.mem_cons_self _ _),
      ih (fun x hx => h x (List.mem_cons_of_mem _ hx))]

/-- `can_pay` only depends on the pool contents, not the iteration order. -/
theorem can_pay_perm (p q : ManaPool) (g : Nat) (pips : List String)
    (hgen : p.generic = q.generic) (hperm : p.colors.Perm q.colors)
    (hnd : (keys p.colors).Nodup) :
    p.can_pay g pips = q.can_pay g pips := by
  have hget : ∀ c, p.getColor c = q.getColor c := by
    intro c
    unfold getColor lookupVal
    rw [lookup_perm hperm hnd]
  unfold can_pay
  have h2 : p.colors.foldl (fun acc e => acc + (e.2 - pips.count e.1)) p.generic
      = q.colors.foldl (fun acc e => acc + (e.2 - pips.count e.1)) q.generic := by
    rw [foldl_add_sub_eq, foldl_add_sub_eq, hgen,
      List.Perm.sum_eq (hperm.map (fun e => e.2 - pips.count e.1))]
  rw [h2]
  congr 1
  exact all_eq_of_pointwise _ _ _ (fun e _ => by rw [hget e.1])

/-- `total` only depends on the pool contents. -/
theorem total_perm (p q : ManaPool) (hgen : p.generic = q.generic)
    (hperm : p.colors.Perm q.colors) : p.total = q.total := by
  unfold total sumValues
  rw [hgen, List.Perm.sum_eq (hperm.map Prod.snd)]

end ManaPool

/-- C8 (counterexample): two pools with IDENTICAL counters (entries that are
permutations of each other — two HashMaps with the same contents and
different iteration orders) both pay a generic cost of 1 successfully, yet end
with different counters: the pool iterating W first drains W, the other drains
U.  The resulting pool state is therefore NOT uniquely determined by the pool
state and the cost, and the settlement order is the map's iteration order, not
a fixed deterministic one. -/
theorem spend_result_depends_on_map_order :
    p1ex.generic = p2ex.generic ∧
    p1ex.colors.Perm p2ex.colors ∧
    (p1ex.spend 1 []).1 = true ∧
    (p2ex.spend 1 []).1 = true ∧
    (p1ex.spend 1 []).2.getColor "W" = 0 ∧
    (p2ex.spend 1 []).2.getColor "W" = 1 := by
  refine ⟨rfl, by decide, by decide, by decide, by decide, by decide⟩

/-- C8 (amended): on a spend, after each color's pip requirement is
subtracted, the generic cost is paid first from the generic counter and then
from the remaining colored surplus, iterating the colors in the HashMap's
iteration order — which is NOT a fixed deterministic order, so the per-color
outcome may differ between pools with identical counters (see the
counterexample); what IS uniquely determined by the counters and the cost is
the success flag and the resulting total. -/
theorem spend_flag_and_total_determined (p q : ManaPool) (g : Nat)
    (pips : List String) (hgen : p.generic = q.generic)
    (hperm : p.colors.Perm q.colors)
    (hnd : (ManaPool.keys p.colors).Nodup) :
    (p.spend g pips).1 = (q.spend g pips).1 ∧
    (p.spend g pips).2.total = (q.spend g pips).2.total := by
  have hcp := ManaPool.can_pay_perm p q g pips hgen hperm hnd
  have hndq : (ManaPool.keys q.colors).Nodup :=
    ((hperm.map Prod.fst).nodup_iff).mp hnd
  have htot := ManaPool.total_perm p q hgen hperm
  constructor
  · rw [ManaPool.spend_fst_eq_can_pay, ManaPool.spend_fst_eq_can_pay, hcp]
  · cases h : p.can_pay g pips with
    | false =>
      rw [ManaPool.spend_not_can_pay h, ManaPool.spend_not_can_pay (hcp ▸ h)]
      exact htot
    | true =>
      obtain ⟨-, hp⟩ := ManaPool.spend_success_total p g pips hnd h
      obtain ⟨-, hq⟩ := ManaPool.spend_success_total q g pips hndq (hcp ▸ h)
      omega

/-- Witness for the amended C8 at a concrete input: the two order-variant
pools agree on the success flag and on the resulting total. -/
theorem spend_flag_and_total_determined_witness :
    (p1ex.spend 1 []).1 = (p2ex.spend 1 []).1 ∧
    (p1ex.spend 1 []).2.total = (p2ex.spend 1 []).2.total :=
  spend_flag_and_total_determined p1ex p2ex 1 [] rfl (by decide) (by decide)

/-- C6 (counterexample): with two zero-cost Ramp cards A then B in hand and 2
generic mana, the ramp pass casts B — the LAST Ramp in hand order — and A
stays in hand, because the loop iterates `(0..hand.len()).rev()`. -/
theorem ramp_pass_casts_last_not_first :
    (CastState.rampStep castEx6).isSome = true ∧
    ((CastState.rampStep castEx6).getD castEx6).battlefield = [rampBex] ∧
    ((CastState.rampStep castEx6).getD castEx6).hand = [rampAex] := by
  decide

namespace CastState

/-- Skipping non-castable indices in the ramp countdown: when every index in
`(i, k)` holds no affordable Ramp, the countdown from `k` reaches `i + 1` with
the state unchanged (a failed `spend` leaves the pool as it was). -/
theorem rampTry_skip (s : CastState) (i : Nat)
    (hfail : ∀ j, i < j → j < s.hand.length →
      ∀ name2 generic2 produces2 features2 count2,
        s.hand.getD j default = Card.Ramp name2 generic2 produces2 features2 count2 →
        (s.mana.spend generic2 []).1 = false) :
    ∀ k, i + 1 ≤ k → k ≤ s.hand.length → rampTry s k = rampTry s (i + 1) := by
  intro k
  induction k with
  | zero =>
    intro h1 _
    exact absurd h1 (by omega)
  | succ k ih =>
    intro h1 h2
    by_cases hk : i + 1 = k + 1
    · rw [hk]
    · have hik : i < k := by omega
      have hklen : k < s.hand.length := by omega
      have hstep : rampTry s (k + 1) = rampTry s k := by
        cases hcard : s.hand.getD k default with
        | Ramp name2 generic2 produces2 features2 count2 =>
          have hsf : (s.mana.spend generic2 []).1 = false :=
            hfail k hik hklen name2 generic2 produces2 features2 count2 hcard
          have hcp : s.mana.can_pay generic2 [] = false := by
            rw [ManaPool.spend_fst_eq_can_pay] at hsf
            exact hsf
          have hres : s.mana.spend generic2 [] = (false, s.mana) :=
            ManaPool.spend_not_can_pay hcp
          simp only [rampTry, hcard, hres]
          rfl
        | Commander name2 generic2 pips2 features2 =>
          simp only [rampTry, hcard]
        | Spell name2 generic2 pips2 features2 type_line2 count2 =>
          simp only [rampTry, hcard]
        | Land name2 produces2 isf2 fetches2 count2 =>
          simp only [rampTry, hcard]
      rw [hstep]
      exact ih (by omega) (by omega)

end CastState

/-- C6 (amended): in each ramp pass, among the Ramp cards in hand affordable
by their generic cost alone (no colored pips), the LAST one in hand order is
the one cast and moved to the battlefield — the loop iterates
`(0..hand.len()).rev()`, so the highest affordable index wins, not the first
in hand order (see the counterexample). -/
theorem ramp_pass_casts_last_affordable (s : CastState) (i : Nat)
    (name : String) (generic : Nat) (produces : List String)
    (features : List Feature) (count : Nat)
    (hlt : i < s.hand.length)
    (hcard : s.hand.getD i default = Card.Ramp name generic produces features count)
    (hpay : (s.mana.spend generic []).1 = true)
    (hlast : ∀ j, i < j → j < s.hand.length →
      ∀ name2 generic2 produces2 features2 count2,
        s.hand.getD j default = Card.Ramp name2 generic2 produces2 features2 count2 →
        (s.mana.spend generic2 []).1 = false) :
    CastState.rampStep s = some { s with
      hand := s.hand.eraseIdx i
      battlefield := s.battlefield ++ [Card.Ramp name generic produces features count]
      mana := (s.mana.spend generic []).2
      cards_cast := s.cards_cast + 1
      cards_drawn := s.cards_drawn
        + (Card.Ramp name generic produces features count).draw_count } := by
  unfold CastState.rampStep
  rw [CastState.rampTry_skip s i hlast s.hand.length (by omega) (by omega)]
  simp only [CastState.rampTry, hcard, hpay, if_true]

/-- Witness for the amended C6 at a concrete input: in `castEx6` the Ramp at
the highest index (B, index 1) is cast. -/
theorem ramp_pass_casts_last_affordable_witness :
    CastState.rampStep castEx6 = some { castEx6 with
      hand := castEx6.hand.eraseIdx 1
      battlefield := castEx6.battlefield ++ [Card.Ramp "B" 0 ["C"] [] 1]
      mana := (castEx6.mana.spend 0 []).2
      cards_cast := castEx6.cards_cast + 1
      cards_drawn := castEx6.cards_drawn + (Card.Ramp "B" 0 ["C"] [] 1).draw_count } :=
  ramp_pass_casts_last_affordable castEx6 1 "B" 0 ["C"] [] 1 (by decide) (by decide)
    (by decide)
    (by
      intro j h1 h2 name2 generic2 produces2 features2 count2 hc
      simp [castEx6] at h2
      omega)

namespace GameState

/-- The element at a `findIdx?` hit satisfies the predicate. -/
theorem findIdx?_getD {α : Type} [Inhabited α] {p : α → Bool} {l : List α}
    {i : Nat} (h : l.findIdx? p = some i) : p (l.getD i default) = true := by
  obtain ⟨hlt, hidx⟩ := List.findIdx?_eq_some_iff_findIdx_eq.mp h
  subst hidx
  rw [List.getD_eq_getElem?_getD, List.getElem?_eq_getElem hlt]
  simpa using @List.findIdx_getElem _ p l hlt

/-- A fetch target is a (non-fetch) Land, in particular a Land. -/
theorem fetchTarget_isLand {fetches : List String} {c : Card}
    (h : fetchTarget fetches c = true) : c.isLand = true := by
  cases c with
  | Land n pr isf f cnt =>
    cases isf with
    | false => rfl
    | true => simp [fetchTarget] at h
  | Commander n g p f => simp [fetchTarget] at h
  | Spell n g p f t cnt => simp [fetchTarget] at h
  | Ramp n g p f cnt => simp [fetchTarget] at h

end GameState

/-- C7: when the first Land in hand is a fetch land and the library holds at
least one non-fetch land whose production set intersects the fetch colors, the
land drop adds exactly one land to the battlefield (the fetched land, not the
fetch), shrinks the library by exactly one card, and moves the fetch land
itself to the graveyard. -/
theorem fetch_land_drop_spec (shuffle : List Card → List Card)
    (hshuffle : ∀ l, (shuffle l).Perm l) (s : GameState) (pos : Nat)
    (name : String) (produces fetches : List String) (count : Nat)
    (hfind : s.hand.findIdx? Card.isLand = some pos)
    (hcard : s.hand.getD pos default = Card.Land name produces true fetches count)
    (hlib : (s.library.findIdx? (GameState.fetchTarget fetches)).isSome = true) :
    ((GameState.landDrop shuffle s).battlefield.filter Card.isLand).length
        = (s.battlefield.filter Card.isLand).length + 1 ∧
    (GameState.landDrop shuffle s).library.length + 1 = s.library.length ∧
    (GameState.landDrop shuffle s).graveyard
        = s.graveyard ++ [Card.Land name produces true fetches count] ∧
    (∃ basic, GameState.fetchTarget fetches basic = true ∧
      (GameState.landDrop shuffle s).battlefield = s.battlefield ++ [basic]) := by
  obtain ⟨bpos, hbpos⟩ := Option.isSome_iff_exists.mp hlib
  have hblt : bpos < s.library.length :=
    (List.findIdx?_eq_some_iff_findIdx_eq.mp hbpos).1
  have hbasic : GameState.fetchTarget fetches (s.library.getD bpos default) = true :=
    GameState.findIdx?_getD hbpos
  have hL : GameState.landDrop shuffle s = { s with
      hand := s.hand.eraseIdx pos
      battlefield := s.battlefield ++ [s.library.getD bpos default]
      library := shuffle (s.library.eraseIdx bpos)
      graveyard := s.graveyard ++ [Card.Land name produces true fetches count]
      lands_played := s.lands_played + 1 } := by
    unfold GameState.landDrop
    rw [hfind]
    simp only [hcard, hbpos]
  rw [hL]
  refine ⟨?_, ?_, rfl, ⟨s.library.getD bpos default, hbasic, rfl⟩⟩
  · rw [List.filter_append]
    have hl2 : Card.isLand (s.library.getD bpos default) = true :=
      GameState.fetchTarget_isLand hbasic
    rw [List.getD_eq_getElem?_getD] at hl2
    simp [hl2]
  · have hperm := hshuffle (s.library.eraseIdx bpos)
    rw [hperm.length_eq, List.length_eraseIdx]
    simp only [hblt, if_pos]
    omega

/-- Witness for C7 at a concrete input: a hand holding one fetch land, a
library holding one matching basic land (and one spell), identity shuffle. -/
theorem fetch_land_drop_spec_witness :
    ((GameState.landDrop id gsFetchEx).battlefield.filter Card.isLand).length
        = (gsFetchEx.battlefield.filter Card.isLand).length + 1 ∧
    (GameState.landDrop id gsFetchEx).library.length + 1 = gsFetchEx.library.length ∧
    (GameState.landDrop id gsFetchEx).graveyard
        = gsFetchEx.graveyard ++ [Card.Land "Fetch" [] true ["G"] 1] ∧
    (∃ basic, GameState.fetchTarget ["G"] basic = true ∧
      (GameState.landDrop id gsFetchEx).battlefield = gsFetchEx.battlefield ++ [basic]) :=
  fetch_land_drop_spec id (fun l => List.Perm.refl l) gsFetchEx 0 "Fetch" [] ["G"] 1
    (by decide) (by decide) (by decide)

/-- The fold of the reduction loop is invariant under permuting the
simulation results: accumulating `TurnTuple.add` is right-commutative. -/
theorem turnTotals_perm (results results2 : List (List TurnTuple))
    (h : results.Perm results2) (t : Nat) :
    turnTotals results t = turnTotals results2 t := by
  unfold turnTotals
  have hcomm : ∀ (a b c : TurnTuple), (a.add b).add c = (a.add c).add b := by
    intro a b c
    simp only [TurnTuple.add, TurnTuple.mk.injEq]
    omega
  suffices hgen : ∀ init : TurnTuple,
      results.foldl (fun acc r => acc.add (r.getD t default)) init
        = results2.foldl (fun acc r => acc.add (r.getD t default)) init by
    exact hgen default
  induction h with
  | nil => intro init; rfl
  | cons x h2 ih =>
    intro init
    simp only [List.foldl_cons]
    exact ih _
  | swap x y l =>
    intro init
    simp only [List.foldl_cons]
    rw [hcomm]
  | trans h1 h2 ih1 ih2 =>
    intro init
    rw [ih1, ih2]

/-- C9: the per-turn reduction of `run` is order-independent — folding the
completed per-simulation outcome rows in any permuted order yields the same
Stats (the sums are identical, hence so are every rate and average array). -/
theorem aggregate_order_independent (sims turns : Nat)
    (results results2 : List (List TurnTuple)) (h : results.Perm results2) :
    aggregate sims turns results = aggregate sims turns results2 := by
  have ht : ∀ u, turnTotals results u = turnTotals results2 u :=
    turnTotals_perm results results2 h
  unfold aggregate
  simp only [ht]

/-- Witness for C9 at a concrete input: two one-turn simulation rows folded in
either order give the same Stats. -/
theorem aggregate_order_independent_witness :
    aggregate 2 1 [row1ex, row2ex] = aggregate 2 1 [row2ex, row1ex] :=
  aggregate_order_independent 2 1 [row1ex, row2ex] [row2ex, row1ex] (by decide)

namespace CastState

/-- A productive ramp countdown removes exactly one card from the hand and
leaves the commander slot untouched. -/
theorem rampTry_shape : ∀ (k : Nat) (s s2 : CastState), k ≤ s.hand.length →
    rampTry s k = some s2 →
    s2.hand.length + 1 = s.hand.length ∧ s2.commander = s.commander := by
  intro k
  induction k with
  | zero =>
    intro s s2 _ h
    simp [rampTry] at h
  | succ i ih =>
    intro s s2 hk h
    cases hcard : s.hand.getD i default with
    | Ramp n g pr f c =>
      simp only [rampTry, hcard] at h
      by_cases hsp : (s.mana.spend g []).1 = true
      · rw [if_pos hsp] at h
        injection h with h2
        subst h2
        refine ⟨?_, rfl⟩
        show (s.hand.eraseIdx i).length + 1 = s.hand.length
        have hilt : i < s.hand.length := by omega
        rw [List.length_eraseIdx, if_pos hilt]
        omega
      · rw [if_neg hsp] at h
        exact ih { s with mana := (s.mana.spend g []).2 } s2
          (by exact (by omega : i ≤ s.hand.length)) h
    | Commander n g p f =>
      simp only [rampTry, hcard] at h
      exact ih s s2 (by omega) h
    | Spell n g p f t c =>
      simp only [rampTry, hcard] at h
      exact ih s s2 (by omega) h
    | Land n p isf fs c =>
      simp only [rampTry, hcard] at h
      exact ih s s2 (by omega) h

/-- A productive commander step empties the commander slot (which was full)
and leaves the hand untouched. -/
theorem commanderStep_shape (s s2 : CastState) (h : commanderStep s = some s2) :
    s2.hand = s.hand ∧ s.commander.isSome = true ∧ s2.commander = none := by
  cases hcmd : s.commander with
  | none => simp [commanderStep, hcmd] at h
  | some cmd =>
    cases cmd with
    | Commander n g p f =>
      simp only [commanderStep, hcmd] at h
      split at h
      · split at h
        · injection h with h2
          subst h2
          exact ⟨rfl, by simp [hcmd], rfl⟩
        · exact absurd h (by simp)
      · exact absurd h (by simp)
    | Spell n g p f t c => simp [commanderStep, hcmd] at h
    | Land n p isf fs c => simp [commanderStep, hcmd] at h
    | Ramp n g p f c => simp [commanderStep, hcmd] at h

/-- The candidate produced by one scan step is the old candidate or the
current index. -/
theorem bestSpellStep_lt (mana : ManaPool) (c : Card) (i : Nat)
    (best : Option (Nat × Bool))
    (hb : ∀ j bb, best = some (j, bb) → j < i) :
    ∀ j bb, bestSpellStep mana c i best = some (j, bb) → j < i + 1 := by
  intro j bb h
  cases c with
  | Spell n g p f t cnt =>
    simp only [bestSpellStep] at h
    split at h
    · cases hbest : best with
      | none =>
        simp only [hbest] at h
        injection h with h2
        have hij : i = j := congrArg Prod.fst h2
        omega
      | some jb =>
        obtain ⟨j2, bd⟩ := jb
        simp only [hbest] at h
        split at h
        · injection h with h2
          have hij : i = j := congrArg Prod.fst h2
          omega
        · injection h with h2
          have hj2 : j2 = j := congrArg Prod.fst h2
          have := hb j2 bd hbest
          omega
    · have := hb j bb h
      omega
  | Commander n g p f =>
    have := hb j bb h
    omega
  | Land n p isf fs c =>
    have := hb j bb h
    omega
  | Ramp n g p f c =>
    have := hb j bb h
    omega

/-- Any index produced by the scan lies below offset + remaining length. -/
theorem bestSpellScan_lt (mana : ManaPool) :
    ∀ (l : List Card) (off : Nat) (best : Option (Nat × Bool)),
      (∀ j bb, best = some (j, bb) → j < off) →
      ∀ i b, bestSpellScan mana l off best = some (i, b) → i < off + l.length := by
  intro l
  induction l with
  | nil =>
    intro off best hb i b h
    simp only [bestSpellScan] at h
    have := hb i b h
    omega
  | cons c rest ih =>
    intro off best hb i b h
    simp only [bestSpellScan] at h
    have := ih (off + 1) (bestSpellStep mana c off best)
      (bestSpellStep_lt mana c off best hb) i b h
    simp only [List.length_cons]
    omega

/-- A productive spell step removes exactly one card from the hand and leaves
the commander slot untouched. -/
theorem spellStep_shape (s s2 : CastState) (h : spellStep s = some s2) :
    s2.hand.length + 1 = s.hand.length ∧ s2.commander = s.commander := by
  unfold spellStep at h
  cases hscan : bestSpellScan s.mana s.hand 0 none with
  | none =>
    rw [hscan] at h
    exact absurd h (by simp)
  | some ib =>
    obtain ⟨i, b⟩ := ib
    have hilt : i < s.hand.length := by
      have := bestSpellScan_lt s.mana s.hand 0 none
        (by intro j bb hj; exact absurd hj (by simp)) i b hscan
      omega
    rw [hscan] at h
    cases hcard : s.hand.getD i default with
    | Spell n g p f t cnt =>
      simp only [hcard] at h
      split at h
      · injection h with h2
        subst h2
        refine ⟨?_, rfl⟩
        show (s.hand.eraseIdx i).length + 1 = s.hand.length
        rw [List.length_eraseIdx, if_pos hilt]
        omega
      · exact absurd h (by simp)
    | Commander n g p f =>
      simp only [hcard] at h
      exact absurd h (by simp)
    | Land n p isf fs c =>
      simp only [hcard] at h
      exact absurd h (by simp)
    | Ramp n g p f c =>
      simp only [hcard] at h
      exact absurd h (by simp)

/-- Each productive pass strictly decreases the loop measure. -/
theorem pass_measure_decreases (s s2 : CastState) (h : pass s = some s2) :
    measure s2 < measure s := by
  cases hr : rampStep s with
  | some s1 =>
    simp only [pass, hr] at h
    injection h with h2
    subst h2
    obtain ⟨hh, hc⟩ := rampTry_shape s.hand.length s s1 (Nat.le_refl _) hr
    unfold measure
    rw [hc]
    omega
  | none =>
    cases hcs : commanderStep s with
    | some s3 =>
      simp only [pass, hr, hcs] at h
      injection h with h2
      subst h2
      obtain ⟨hh, hsome, hnone⟩ := commanderStep_shape s s3 hcs
      unfold measure
      rw [hh, hsome, hnone]
      simp
    | none =>
      simp only [pass, hr, hcs] at h
      obtain ⟨hh, hc⟩ := spellStep_shape s s2 h
      unfold measure
      rw [hc]
      omega

/-- With fuel above the measure, the casting loop reaches a state where no
step can play, within at most `measure` productive passes. -/
theorem runPasses_fixpoint : ∀ (fuel : Nat) (s : CastState), measure s < fuel →
    pass (runPasses fuel s).1 = none ∧ (runPasses fuel s).2 ≤ measure s := by
  intro fuel
  induction fuel with
  | zero =>
    intro s h
    exact absurd h (by omega)
  | succ f ih =>
    intro s h
    cases hp : pass s with
    | none => simp [runPasses, hp]
    | some s1 =>
      have hdec := pass_measure_decreases s s1 hp
      have hrec := ih s1 (by omega)
      simp only [runPasses, hp]
      exact ⟨hrec.1, by omega⟩

end CastState

/-- C10: the casting loop of `play_turn` terminates for every state.  Each
productive pass (ramp, commander, or spell) removes one card from the hand or
empties the commander slot, and no card enters the hand during the loop, so
with fuel `hand + 2` the loop reaches a state where no step can play (the
final failing pass) after at most `hand + 1` productive passes. -/
theorem casting_loop_terminates (s : CastState) :
    CastState.pass (CastState.runPasses (s.hand.length + 2) s).1 = none ∧
    (CastState.runPasses (s.hand.length + 2) s).2 ≤ s.hand.length + 1 := by
  have hm : CastState.measure s ≤ s.hand.length + 1 := by
    unfold CastState.measure
    split <;> omega
  have hfix := CastState.runPasses_fixpoint (s.hand.length + 2) s (by omega)
  exact ⟨hfix.1, by omega⟩
